import Mathlib

/-!
# Profolio — verification of the snapshot/metrics/reconciliation core

Shallow embedding of the crypto portfolio tracker: the `CryptoPortfolio`
client class (holdings ledger, metrics engine, history, snapshots, total-cost
override) and the server's `/api/export-history` CSV endpoint.

Modelling conventions:
* JS numbers are embedded as `ℚ` (the arithmetic identities the code relies on
  hold exactly over `ℚ`; the spec's "within 1e-9 tolerance" allowances are met
  by exact equality).
* Timestamps (`Date.now()`, `new Date(x).getTime()`) are `ℤ` milliseconds
  since the Unix epoch; ISO-8601 timestamp strings order exactly like their
  millisecond values, so sorting/comparing by parsed timestamp is `ℤ` order.
* The server is modelled running with a UTC wall clock (`setHours` etc. act
  on UTC civil time).
* JS objects used as string-keyed maps (`cryptoData`, `dailySnapshots`) are
  association lists in first-insertion order, matching `Object.entries`
  enumeration order for non-index string keys.
* Methods that mutate `this` and `return` early on validation failure are
  state transformers returning the (possibly unchanged) state together with
  `Option String`, the error message passed to `showMessage(_, 'error')`.
* `saveTransaction` POSTs to the append-only server log; the log is carried
  in the state as `transactions`.
-/

namespace Profolio

/-- One ledger entry (`this.portfolio` element), as built by `addCoin`. -/
structure Coin where
  id : String
  symbol : String
  amount : ℚ
  purchasePrice : ℚ
  totalCost : ℚ
  averagePrice : ℚ
  note : String
  deriving Repr, DecidableEq

/-- Live market data per symbol (`this.cryptoData[symbol]`). -/
structure CoinData where
  price : ℚ
  change24h : ℚ
  deriving Repr, DecidableEq

/-- Result of `calculatePnlPercent`: a number, or the string `'N/A'`. -/
inductive PnlPercent where
  | na : PnlPercent
  | val : ℚ → PnlPercent
  deriving Repr, DecidableEq

/-- Append-only transaction record (client `saveTransaction` payload plus the
server-assigned `id`/`timestamp` defaults). -/
structure Transaction where
  id : String
  timestamp : ℤ
  symbol : String
  amount : ℚ
  purchasePrice : ℚ
  totalCost : ℚ
  note : String
  type : String
  deriving Repr, DecidableEq

/-- Session history entry (`savePortfolioHistory`). -/
structure HistoryEntry where
  timestamp : ℤ
  totalValue : ℚ
  totalCost : ℚ
  totalPnl : ℚ
  totalPnlPercent : PnlPercent
  portfolio : List Coin
  deriving Repr, DecidableEq

/-- Point-in-time snapshot. `totalPnl`/`totalPnlPercent` are typed with the
sentinel-admitting type so that "the stored value is numeric" is a statement,
not a typing artefact. The `projects` payload fetched over HTTP is opaque to
every claim and is not carried. -/
structure Snapshot where
  id : String
  timestamp : ℤ
  description : String
  portfolio : List Coin
  cryptoData : List (String × CoinData)
  totalValue : ℚ
  totalCost : ℚ
  totalPnl : ℚ
  totalPnlPercent : PnlPercent
  deriving Repr, DecidableEq

/-- The mutable fields of the `CryptoPortfolio` instance that the specified
core reads or writes, plus the server-side transaction log. -/
structure PState where
  portfolio : List Coin
  cryptoData : List (String × CoinData)
  portfolioTotalCost : Option ℚ
  portfolioHistory : List HistoryEntry
  portfolioSnapshots : List Snapshot
  transactions : List Transaction
  sortColumn : Option String
  sortOrder : String
  deriving Repr, DecidableEq

/-- Assoc-list lookup, the embedding of `obj[key]` (`none` = `undefined`). -/
def alookup {α : Type} (m : List (String × α)) (k : String) : Option α :=
  match m with
  | [] => none
  | (k', v) :: rest => if k' = k then some v else alookup rest k

/-- `this.cryptoData[symbol]?.price || 0` — a missing entry yields `0`, and a
stored price of `0` is already `0`, so `||` and `?? ` coincide here. -/
def priceOr0 (cryptoData : List (String × CoinData)) (symbol : String) : ℚ :=
  match alookup cryptoData symbol with
  | some d => d.price
  | none => 0

/-- `this.cryptoData[symbol]?.price || fallback` (`removeCoin` line 474): the
fallback is taken when the entry is missing *or* the stored price is the falsy
number `0`. -/
def priceOrFallback (cryptoData : List (String × CoinData)) (symbol : String)
    (fallback : ℚ) : ℚ :=
  match alookup cryptoData symbol with
  | some d => if d.price = 0 then fallback else d.price
  | none => fallback

/-- `calculatePnlPercent(currentValue, totalCost)` — returns the number
`((currentValue−totalCost)/totalCost)*100` when `totalCost > 0`, else the
string `'N/A'`. -/
def calculatePnlPercent (currentValue totalCost : ℚ) : PnlPercent :=
  if 0 < totalCost then .val ((currentValue - totalCost) / totalCost * 100)
  else .na

/-- `calculateTotalValue()` — `Σ amount * (price || 0)` over the portfolio. -/
def calculateTotalValue (s : PState) : ℚ :=
  s.portfolio.foldl (fun total coin => total + coin.amount * priceOr0 s.cryptoData coin.symbol) 0

/-- Sum of the individual holdings' `totalCost` (the reduce in
`calculateTotalCost`, `resetTotalCost`). -/
def sumCoinCosts (portfolio : List Coin) : ℚ :=
  portfolio.foldl (fun total coin => total + coin.totalCost) 0

/-- `calculateTotalCost()` — the ledger-wide override if set
(`this.portfolioTotalCost !== undefined`), else the per-holding sum. -/
def calculateTotalCost (s : PState) : ℚ :=
  match s.portfolioTotalCost with
  | some v => v
  | none => sumCoinCosts s.portfolio

/-- `calculateTotalPnl()`. -/
def calculateTotalPnl (s : PState) : ℚ :=
  calculateTotalValue s - calculateTotalCost s

/-- `calculateTotalPnlPercent()` — note: numeric `0`, not `'N/A'`, when the
aggregate cost is not strictly positive. -/
def calculateTotalPnlPercent (s : PState) : ℚ :=
  if 0 < calculateTotalCost s then calculateTotalPnl s / calculateTotalCost s * 100
  else 0

/-- Codepoint-wise lexicographic comparison of character lists. -/
def charListLe : List Char → List Char → Bool
  | [], _ => true
  | _ :: _, [] => false
  | a :: as, b :: bs =>
    if a = b then charListLe as bs else decide (a.toNat < b.toNat)

/-- `a.localeCompare(b) ≤ 0` — for the ASCII keys this code compares
(`YYYY-MM-DD` date strings, coin symbols), `localeCompare` orders by
codepoint, i.e. lexicographically. -/
def strLe (a b : String) : Bool := charListLe a.data b.data

/-! ## Sorting (`sortPortfolio`)

`Array.prototype.sort(cmp)` with a consistent comparator is a stable sort;
we embed it as a stable insertion sort where `le y x` means `cmp(y, x) ≤ 0`:
each element is inserted after every already-placed element that compares
less-or-equal to it, which reproduces the stable sorted order. -/

/-- Insert `x` after every element `y` of the (sorted) list with `le y x`. -/
def stableInsert {α : Type} (le : α → α → Bool) (x : α) : List α → List α
  | [] => [x]
  | y :: ys => if le y x then y :: stableInsert le x ys else x :: y :: ys

/-- Stable sort by repeated insertion, processing the list left to right. -/
def stableSort {α : Type} (le : α → α → Bool) (l : List α) : List α :=
  l.foldl (fun acc x => stableInsert le x acc) []

/-- The numeric sort key of a row for a numeric column (the `switch` in
`sortPortfolio`); `none` for the `symbol` column and unknown columns. -/
def sortKeyNum (s : PState) (column : String) (a : Coin) : Option ℚ :=
  if column = "amount" then some a.amount
  else if column = "currentPrice" then some (priceOr0 s.cryptoData a.symbol)
  else if column = "purchasePrice" then some a.averagePrice
  else if column = "currentValue" then some (a.amount * priceOr0 s.cryptoData a.symbol)
  else if column = "valuePercent" then
    let aValueAmount := a.amount * priceOr0 s.cryptoData a.symbol
    let totalValue := calculateTotalValue s
    some (if 0 < totalValue then aValueAmount / totalValue * 100 else 0)
  else if column = "pnl" then some (a.amount * priceOr0 s.cryptoData a.symbol - a.totalCost)
  else if column = "pnlPercent" then
    let aCurrentVal := a.amount * priceOr0 s.cryptoData a.symbol
    some (match calculatePnlPercent aCurrentVal a.totalCost with
          | .na => 0
          | .val q => q)
  else none

/-- `cmp(a, b) ≤ 0` for the `sortPortfolio` comparator: `localeCompare` for
`symbol`, numeric difference otherwise; the `default` branch returns `0`
(always `≤ 0`, so the stable sort leaves the order unchanged). -/
def sortLe (s : PState) (column order : String) (a b : Coin) : Bool :=
  if column = "symbol" then
    if order = "asc" then strLe a.symbol b.symbol else strLe b.symbol a.symbol
  else
    match sortKeyNum s column a, sortKeyNum s column b with
    | some ka, some kb => if order = "asc" then decide (ka ≤ kb) else decide (kb ≤ ka)
    | _, _ => true

/-- `sortPortfolio(column, order)` — records the active sort and stably sorts
`this.portfolio` by the column comparator (DOM button styling omitted). -/
def sortPortfolio (s : PState) (column order : String) : PState :=
  { s with sortColumn := some column, sortOrder := order,
           portfolio := stableSort (sortLe s column order) s.portfolio }

/-! ## History (`savePortfolioHistory`) -/

/-- `push` then `slice(-100)` when over 100: keep only the last 100 entries. -/
def pushHistoryCapped (h : List HistoryEntry) (e : HistoryEntry) : List HistoryEntry :=
  let h2 := h ++ [e]
  if 100 < h2.length then h2.drop (h2.length - 100) else h2

/-- `savePortfolioHistory(totalValue, totalCost, totalPnl, totalPnlPercent)` —
appends a history entry capturing the current portfolio, capped at 100. -/
def savePortfolioHistory (s : PState) (now : ℤ) (totalValue totalCost totalPnl : ℚ)
    (totalPnlPercent : PnlPercent) : PState :=
  let entry : HistoryEntry :=
    { timestamp := now, totalValue := totalValue, totalCost := totalCost,
      totalPnl := totalPnl, totalPnlPercent := totalPnlPercent,
      portfolio := s.portfolio }
  { s with portfolioHistory := pushHistoryCapped s.portfolioHistory entry }

/-- `updateTotalValue()` — recomputes the aggregates (the display writes are
not state) and appends a history entry; the `totalPnlPercent` recorded here is
the display metric, so it may be the `'N/A'` sentinel. -/
def updateTotalValue (s : PState) (now : ℤ) : PState :=
  let totalValue := calculateTotalValue s
  let totalCost := calculateTotalCost s
  savePortfolioHistory s now totalValue totalCost (totalValue - totalCost)
    (calculatePnlPercent totalValue totalCost)

/-! ## Number formatting (`toFixed`, `formatPrice`)

`Number.prototype.toFixed(n)` rounds the decimal expansion to `n` digits; on
`ℚ` we embed it as round-half-up scaling, which agrees with JS on every value
whose decimal expansion is exact at `n` digits (all values appearing in the
claims). -/

/-- Decimal digits of `a` left-padded with zeros to `width`. -/
def padZeros (width : ℕ) (a : ℕ) : String :=
  let s := toString a
  String.mk (List.replicate (width - s.length) '0') ++ s

/-- `x.toFixed(n)`. -/
def toFixed (n : ℕ) (q : ℚ) : String :=
  let p : ℤ := (10 : ℤ) ^ n
  let m : ℤ := ⌊q * (p : ℚ) + 1/2⌋
  let a := m.natAbs
  (if m < 0 then "-" else "") ++ toString (a / (10 : ℕ) ^ n) ++ "." ++ padZeros n (a % (10 : ℕ) ^ n)

/-- `formatPrice(price)` — '$'-prefixed, precision by magnitude. -/
def formatPrice (price : ℚ) : String :=
  if price = 0 then "$0.00"
  else if price < 1/100 then "$" ++ toFixed 6 price
  else if price < 1 then "$" ++ toFixed 4 price
  else if price < 100 then "$" ++ toFixed 3 price
  else "$" ++ toFixed 2 price

/-! ## Ledger operations -/

/-- The portfolio effect of `addCoin` after validation: merge into the first
entry with the same `(symbol, note)` (accumulate `amount` and `totalCost`,
recompute `averagePrice = totalCost/amount`, overwrite `purchasePrice` with
the new average), else append a fresh entry at the end. -/
def addCoinPortfolio (symbol : String) (amount purchasePrice : ℚ) (note : String) :
    List Coin → List Coin
  | [] =>
    [{ id := symbol ++ "_" ++ (if note = "" then "default" else note),
       symbol := symbol, amount := amount, purchasePrice := purchasePrice,
       totalCost := amount * purchasePrice, averagePrice := purchasePrice,
       note := note }]
  | c :: cs =>
    if c.symbol = symbol ∧ c.note = note then
      { c with
        amount := c.amount + amount,
        totalCost := c.totalCost + amount * purchasePrice,
        averagePrice := (c.totalCost + amount * purchasePrice) / (c.amount + amount),
        purchasePrice := (c.totalCost + amount * purchasePrice) / (c.amount + amount) } :: cs
    else c :: addCoinPortfolio symbol amount purchasePrice note cs

/-- `addCoin()` with the form inputs as arguments (`symbol` uppercased,
`note` trimmed, numbers parsed). Validation failures return early with the
error message and an unchanged state. On success: merge/append, record a buy
transaction, then re-sort by current value descending and recompute the
aggregates (which appends a history entry). -/
def addCoin (s : PState) (symbol : String) (amount purchasePrice : ℚ)
    (note : String) (now : ℤ) : PState × Option String :=
  if symbol = "" ∨ amount = 0 then
    (s, some "Please fill in all required fields.")
  else if amount ≤ 0 ∨ purchasePrice < 0 then
    (s, some "Amount must be positive and purchase price cannot be negative.")
  else
    let s1 := { s with portfolio := addCoinPortfolio symbol amount purchasePrice note s.portfolio }
    let tx : Transaction :=
      { id := toString now, timestamp := now, symbol := symbol, amount := amount,
        purchasePrice := purchasePrice, totalCost := amount * purchasePrice,
        note := note, type := "buy" }
    let s2 := { s1 with transactions := s1.transactions ++ [tx] }
    (updateTotalValue (sortPortfolio s2 "currentValue" "desc") now, none)

/-- `removeCoin(symbol, note)` — records a sell transaction iff a matching
coin exists (priced `cryptoData[symbol]?.price || averagePrice`), filters out
every `(symbol, note)` match, then re-sorts and recomputes aggregates. -/
def removeCoin (s : PState) (symbol note : String) (now : ℤ) : PState :=
  let s1 :=
    match s.portfolio.find? (fun c => decide (c.symbol = symbol ∧ c.note = note)) with
    | some coin =>
      let currentPrice := priceOrFallback s.cryptoData symbol coin.averagePrice
      let tx : Transaction :=
        { id := toString now, timestamp := now, symbol := symbol,
          amount := coin.amount, purchasePrice := currentPrice,
          totalCost := coin.amount * currentPrice, note := note, type := "sell" }
      { s with transactions := s.transactions ++ [tx] }
    | none => s
  let s2 := { s1 with portfolio := s1.portfolio.filter (fun c => decide (¬(c.symbol = symbol ∧ c.note = note))) }
  updateTotalValue (sortPortfolio s2 "currentValue" "desc") now

/-- `clearPortfolio()`, confirmed path: empties the ledger unconditionally,
then re-sorts (a no-op on `[]`) and recomputes aggregates. -/
def clearPortfolio (s : PState) (now : ℤ) : PState :=
  updateTotalValue (sortPortfolio { s with portfolio := [] } "currentValue" "desc") now

/-! ## Snapshots and the total-cost override -/

/-- `unshift` then `slice(0, 50)` when over 50: newest first, keep 50. -/
def pushSnapshotCapped (snaps : List Snapshot) (snap : Snapshot) : List Snapshot :=
  let l := snap :: snaps
  if 50 < l.length then l.take 50 else l

/-- `createSnapshot(description)` — rejected on an empty portfolio; otherwise
captures deep copies of the portfolio and price map plus the four aggregates.
The stored `totalPnlPercent` is `calculateTotalPnlPercent()`, always numeric. -/
def createSnapshot (s : PState) (description : String) (now : ℤ) : PState × Option String :=
  if s.portfolio = [] then
    (s, some "Cannot create snapshot: Portfolio is empty")
  else
    let snapshot : Snapshot :=
      { id := toString now, timestamp := now, description := description,
        portfolio := s.portfolio, cryptoData := s.cryptoData,
        totalValue := calculateTotalValue s, totalCost := calculateTotalCost s,
        totalPnl := calculateTotalPnl s,
        totalPnlPercent := .val (calculateTotalPnlPercent s) }
    ({ s with portfolioSnapshots := pushSnapshotCapped s.portfolioSnapshots snapshot }, none)

/-- `setTotalCost(newTotalCost)` — rejected (state unchanged) on an empty
portfolio or a negative value; otherwise stores the override, snapshots the
ledger with `totalCost = newTotalCost` (individual holdings untouched), and
recomputes the aggregates. -/
def setTotalCost (s : PState) (newTotalCost : ℚ) (now : ℤ) : PState × Option String :=
  if s.portfolio = [] then
    (s, some "Cannot set total cost: Portfolio is empty")
  else if newTotalCost < 0 then
    (s, some "Total cost cannot be negative")
  else
    let s1 := { s with portfolioTotalCost := some newTotalCost }
    let snapshot : Snapshot :=
      { id := toString now, timestamp := now,
        description := "Total Cost Set to " ++ formatPrice newTotalCost,
        portfolio := s1.portfolio, cryptoData := s1.cryptoData,
        totalValue := calculateTotalValue s1, totalCost := newTotalCost,
        totalPnl := calculateTotalValue s1 - newTotalCost,
        totalPnlPercent := .val (if 0 < newTotalCost then
          (calculateTotalValue s1 - newTotalCost) / newTotalCost * 100 else 0) }
    let s2 := { s1 with portfolioSnapshots := pushSnapshotCapped s1.portfolioSnapshots snapshot }
    (updateTotalValue s2 now, none)

/-- `resetTotalCost()` — rejected on an empty portfolio; otherwise clears the
override (aggregate cost falls back to the per-holding sum), snapshots with
`totalCost` = that sum, and recomputes the aggregates. -/
def resetTotalCost (s : PState) (now : ℤ) : PState × Option String :=
  if s.portfolio = [] then
    (s, some "Cannot reset total cost: Portfolio is empty")
  else
    let s1 := { s with portfolioTotalCost := none }
    let snapshot : Snapshot :=
      { id := toString now, timestamp := now,
        description := "Total Cost Reset to Individual Coin Values",
        portfolio := s1.portfolio, cryptoData := s1.cryptoData,
        totalValue := calculateTotalValue s1,
        totalCost := sumCoinCosts s1.portfolio,
        totalPnl := calculateTotalPnl s1,
        totalPnlPercent := .val (calculateTotalPnlPercent s1) }
    let s2 := { s1 with portfolioSnapshots := pushSnapshotCapped s1.portfolioSnapshots snapshot }
    (updateTotalValue s2 now, none)

/-! ## Automatic snapshot gate (`shouldCreateAutoSnapshot`) -/

/-- `snapshots.reduce((latest, current) => current.timestamp > latest.timestamp
? current : latest)` — the no-initial-value reduce, seeded with the head. -/
def latestSnapshot (head : Snapshot) (rest : List Snapshot) : Snapshot :=
  rest.foldl (fun latest current =>
    if latest.timestamp < current.timestamp then current else latest) head

def oneHourMs : ℤ := 60 * 60 * 1000

/-- `shouldCreateAutoSnapshot()` on the fetched snapshot list (the
fetch-failure paths, which also return `true`, are I/O and outside the
model): `true` when no snapshot exists or the most recent one is more than an
hour old. -/
def shouldCreateAutoSnapshot (snapshots : List Snapshot) (now : ℤ) : Bool :=
  match snapshots with
  | [] => true
  | s0 :: rest => decide (oneHourMs < now - (latestSnapshot s0 rest).timestamp)

/-! ## Server: `GET /api/export-history`

The endpoint (server file, lines 490–552) sorts all stored snapshots by
timestamp, filters them to `[start, endOfDay(end)]`, keeps the
latest-timestamped snapshot per `toISOString()` calendar day, sorts the
`(dateKey, snapshot)` entries by date string, and renders
`date,totalValue.toFixed(2)` rows under a `date,portfolio` header.
The server clock is modelled as UTC, so `end.setHours(23,59,59,999)` lands on
the last millisecond of the UTC day of `end`. -/

def msPerDay : ℤ := 86400000

/-- Civil date `(year, month, day)` of a day count from 1970-01-01
(proleptic Gregorian; the days-to-civil algorithm behind
`Date.prototype.toISOString`). -/
def civilFromDays (z0 : ℤ) : ℤ × ℕ × ℕ :=
  let z : ℤ := z0 + 719468
  let era : ℤ := z.fdiv 146097
  let doe : ℕ := (z - era * 146097).toNat
  let yoe : ℕ := (doe - doe / 1460 + doe / 36524 - doe / 146096) / 365
  let doy : ℕ := doe - (365 * yoe + yoe / 4 - yoe / 100)
  let mp : ℕ := (5 * doy + 2) / 153
  let d : ℕ := doy - (153 * mp + 2) / 5 + 1
  let m : ℕ := if mp < 10 then mp + 3 else mp - 9
  let y : ℤ := (yoe : ℤ) + era * 400 + (if m ≤ 2 then 1 else 0)
  (y, m, d)

/-- Two-digit zero-padded field. -/
def pad2 (n : ℕ) : String :=
  if n < 10 then "0" ++ toString n else toString n

/-- Four-digit zero-padded year (common-era range as emitted by
`toISOString` for the years this system can encounter). -/
def pad4 (y : ℤ) : String :=
  (if y < 0 then "-" else "") ++ padZeros 4 y.natAbs

/-- `new Date(ts).toISOString().split('T')[0]` — the `YYYY-MM-DD` UTC day. -/
def dateKey (ts : ℤ) : String :=
  let c := civilFromDays (ts.fdiv msPerDay)
  pad4 c.1 ++ "-" ++ pad2 c.2.1 ++ "-" ++ pad2 c.2.2

/-- In-range test of the export filter: before `start` or after `end`
(when given) excludes the snapshot. -/
def inRange (start end_ : Option ℤ) (ts : ℤ) : Bool :=
  (match start with | some st => decide (st ≤ ts) | none => true) &&
  (match end_ with | some en => decide (ts ≤ en) | none => true)

/-- One step of building the `dailySnapshots` object: JS objects keep
non-index string keys in first-insertion order, and assigning
`dailySnapshots[dateKey] = snapshot` replaces the value in place; the
replacement happens only when the new snapshot's timestamp is strictly
later. -/
def upsertDaily (m : List (String × Snapshot)) (k : String) (snap : Snapshot) :
    List (String × Snapshot) :=
  match m with
  | [] => [(k, snap)]
  | (k', s') :: rest =>
    if k' = k then
      if s'.timestamp < snap.timestamp then (k', snap) :: rest else (k', s') :: rest
    else (k', s') :: upsertDaily rest k snap

/-- The `dailySnapshots` object after the `forEach`: latest snapshot per
calendar day, keyed by `YYYY-MM-DD`. -/
def dailySnapshots (snaps : List Snapshot) : List (String × Snapshot) :=
  snaps.foldl (fun m snap => upsertDaily m (dateKey snap.timestamp) snap) []

/-- `end.setHours(23, 59, 59, 999)` on a UTC server: last millisecond of the
UTC day containing `e`. -/
def endOfDay (e : ℤ) : ℤ :=
  e.fdiv msPerDay * msPerDay + (msPerDay - 1)

/-- The in-range snapshot list the handler aggregates (`filteredSnapshots`):
all stored snapshots sorted by timestamp, restricted to
`[start, endOfDay end]`. -/
def exportFiltered (allSnapshots : List Snapshot) (start end0 : Option ℤ) :
    List Snapshot :=
  (stableSort (fun a b => decide (a.timestamp ≤ b.timestamp)) allSnapshots).filter
    (fun snap => inRange start (end0.map endOfDay) snap.timestamp)

/-- The `dailyData` stage of the handler (before row rendering): the
`(dateKey, snapshot)` entries of the daily aggregation, sorted by date
string (`Object.entries(...).sort((a, b) => a[0].localeCompare(b[0]))`). -/
def exportDaily (allSnapshots : List Snapshot) (start end0 : Option ℤ) :
    List (String × Snapshot) :=
  stableSort (fun a b => strLe a.1 b.1)
    (dailySnapshots (exportFiltered allSnapshots start end0))

/-- The CSV body rows of `GET /api/export-history`: `start`/`end0` are the
parsed `startDate`/`endDate` query parameters (milliseconds; date-only
strings parse to UTC midnight), `none` when absent. -/
def exportHistoryRows (allSnapshots : List Snapshot) (start end0 : Option ℤ) :
    List String :=
  (exportDaily allSnapshots start end0).map
    (fun p => p.1 ++ "," ++ toFixed 2 p.2.totalValue)

/-- The full CSV payload: header line plus one row per day. -/
def exportHistoryCsv (allSnapshots : List Snapshot) (start end0 : Option ℤ) :
    String :=
  String.intercalate "\n" ("date,portfolio" :: exportHistoryRows allSnapshots start end0)

/-! ## Operation words and invariants used by the claims -/

/-- The per-holding invariant of §3: cost basis tracks the weighted average
(with the positivity that every validated addition maintains). -/
def CoinOk (c : Coin) : Prop :=
  0 < c.amount ∧ c.totalCost = c.amount * c.averagePrice

/-- At most one holding per `(symbol, note)` pair. -/
def UniqueLedger (l : List Coin) : Prop :=
  l.Pairwise (fun a b => ¬(a.symbol = b.symbol ∧ a.note = b.note))

/-- Invariant of the `dailySnapshots` fold: after processing the snapshots in
`done`, the accumulator `m` holds, per calendar day, the latest-timestamped
processed snapshot of that day; every processed day is present; and the day
keys are pairwise distinct. -/
def DailyInv (done : List Snapshot) (m : List (String × Snapshot)) : Prop :=
  (∀ p ∈ m, dateKey p.2.timestamp = p.1 ∧ p.2 ∈ done ∧
    ∀ sn ∈ done, dateKey sn.timestamp = p.1 → sn.timestamp ≤ p.2.timestamp) ∧
  (∀ sn ∈ done, ∃ p ∈ m, p.1 = dateKey sn.timestamp) ∧
  m.Pairwise (fun p q => p.1 ≠ q.1)

/-- The arguments of one `addCoin` call. -/
structure AddArgs where
  symbol : String
  amount : ℚ
  purchasePrice : ℚ
  note : String
  now : ℤ
  deriving Repr, DecidableEq

/-- A sequence of `addCoin` calls. -/
def applyAdds (s : PState) (l : List AddArgs) : PState :=
  l.foldl (fun s a => (addCoin s a.symbol a.amount a.purchasePrice a.note a.now).1) s

/-- The ledger operations of §4.1 (the storage/render side effects carry no
ledger state). -/
inductive LedgerOp where
  | add (symbol : String) (amount purchasePrice : ℚ) (note : String) (now : ℤ)
  | remove (symbol note : String) (now : ℤ)
  | clear (now : ℤ)
  deriving Repr, DecidableEq

/-- One ledger operation applied to the session state. -/
def applyOp (s : PState) : LedgerOp → PState
  | .add symbol amount purchasePrice note now =>
    (addCoin s symbol amount purchasePrice note now).1
  | .remove symbol note now => removeCoin s symbol note now
  | .clear now => clearPortfolio s now

/-- A whole session of ledger operations. -/
def applyOps (s : PState) (ops : List LedgerOp) : PState :=
  ops.foldl applyOp s

/-- The sell-transaction record built by `removeCoin` for the removed coin at
a given unit price. -/
def sellTx (symbol note : String) (now : ℤ) (coin : Coin) (price : ℚ) : Transaction :=
  { id := toString now, timestamp := now, symbol := symbol, amount := coin.amount,
    purchasePrice := price, totalCost := coin.amount * price, note := note,
    type := "sell" }

/-! ## Concrete states used by witnesses and counterexamples -/

/-- The fresh `CryptoPortfolio` instance fields (constructor, lines 60–69). -/
def initialState : PState :=
  { portfolio := [], cryptoData := [], portfolioTotalCost := none,
    portfolioHistory := [], portfolioSnapshots := [], transactions := [],
    sortColumn := none, sortOrder := "asc" }

/-- One BTC bought at 100. -/
def sampleCoin : Coin :=
  { id := "BTC_default", symbol := "BTC", amount := 1, purchasePrice := 100,
    totalCost := 100, averagePrice := 100, note := "" }

/-- A session holding exactly `sampleCoin`. -/
def sampleState : PState := { initialState with portfolio := [sampleCoin] }

/-- `sampleState` with a *known* live BTC price of `0` (a falsy number). -/
def zeroPriceState : PState :=
  { sampleState with cryptoData := [("BTC", { price := 0, change24h := 0 })] }

/-- `sampleState` with a known live BTC price of `50`. -/
def livePriceState : PState :=
  { sampleState with cryptoData := [("BTC", { price := 50, change24h := 0 })] }

/-- A stored snapshot with the fields the gate and the export read. -/
def valueSnapshot (ts : ℤ) (v : ℚ) : Snapshot :=
  { id := "1", timestamp := ts, description := "Manual Snapshot",
    portfolio := [sampleCoin], cryptoData := [], totalValue := v,
    totalCost := 100, totalPnl := v - 100, totalPnlPercent := .val 0 }

/-- A session history entry. -/
def sampleEntry : HistoryEntry :=
  { timestamp := 0, totalValue := 0, totalCost := 0, totalPnl := 0,
    totalPnlPercent := .na, portfolio := [] }

/-- The spec's merge scenario: the two additions `BTC 1 @ 100` then
`BTC 1 @ 300` (same empty note). -/
def twoAdds : List AddArgs :=
  [{ symbol := "BTC", amount := 1, purchasePrice := 100, note := "", now := 0 },
   { symbol := "BTC", amount := 1, purchasePrice := 300, note := "", now := 1 }]

/-- The holding the merge scenario produces: amount 2, `totalCost` 400,
weighted average 200. -/
def mergedCoin : Coin :=
  { id := "BTC_default", symbol := "BTC", amount := 2, purchasePrice := 200,
    totalCost := 400, averagePrice := 200, note := "" }

/-- A session whose history is already at the 100-entry cap. -/
def cap100State : PState :=
  { initialState with portfolioHistory := List.replicate 100 sampleEntry }

/-- The three stored snapshots of the spec's daily-aggregation example:
values 100, 120, 130 at `2024-01-01T10:00Z`, `2024-01-01T22:00Z`,
`2024-01-02T09:00Z`. -/
def c2Snapshots : List Snapshot :=
  [valueSnapshot 1704103200000 100,
   valueSnapshot 1704146400000 120,
   valueSnapshot 1704186000000 130]

/-! # Theorems

First, shared bookkeeping lemmas: which state fields each operation leaves
untouched, and the permutation/sortedness facts about `stableSort`. -/

@[simp] theorem savePortfolioHistory_portfolio (s : PState) (now : ℤ)
    (v c p : ℚ) (pp : PnlPercent) :
    (savePortfolioHistory s now v c p pp).portfolio = s.portfolio := rfl

@[simp] theorem savePortfolioHistory_totalCostField (s : PState) (now : ℤ)
    (v c p : ℚ) (pp : PnlPercent) :
    (savePortfolioHistory s now v c p pp).portfolioTotalCost = s.portfolioTotalCost := rfl

@[simp] theorem savePortfolioHistory_transactions (s : PState) (now : ℤ)
    (v c p : ℚ) (pp : PnlPercent) :
    (savePortfolioHistory s now v c p pp).transactions = s.transactions := rfl

@[simp] theorem savePortfolioHistory_snapshots (s : PState) (now : ℤ)
    (v c p : ℚ) (pp : PnlPercent) :
    (savePortfolioHistory s now v c p pp).portfolioSnapshots = s.portfolioSnapshots := rfl

@[simp] theorem savePortfolioHistory_cryptoData (s : PState) (now : ℤ)
    (v c p : ℚ) (pp : PnlPercent) :
    (savePortfolioHistory s now v c p pp).cryptoData = s.cryptoData := rfl

@[simp] theorem updateTotalValue_portfolio (s : PState) (now : ℤ) :
    (updateTotalValue s now).portfolio = s.portfolio := rfl

@[simp] theorem updateTotalValue_totalCostField (s : PState) (now : ℤ) :
    (updateTotalValue s now).portfolioTotalCost = s.portfolioTotalCost := rfl

@[simp] theorem updateTotalValue_transactions (s : PState) (now : ℤ) :
    (updateTotalValue s now).transactions = s.transactions := rfl

@[simp] theorem updateTotalValue_snapshots (s : PState) (now : ℤ) :
    (updateTotalValue s now).portfolioSnapshots = s.portfolioSnapshots := rfl

@[simp] theorem updateTotalValue_cryptoData (s : PState) (now : ℤ) :
    (updateTotalValue s now).cryptoData = s.cryptoData := rfl

@[simp] theorem sortPortfolio_portfolio (s : PState) (column order : String) :
    (sortPortfolio s column order).portfolio = stableSort (sortLe s column order) s.portfolio := rfl

@[simp] theorem sortPortfolio_totalCostField (s : PState) (column order : String) :
    (sortPortfolio s column order).portfolioTotalCost = s.portfolioTotalCost := rfl

@[simp] theorem sortPortfolio_transactions (s : PState) (column order : String) :
    (sortPortfolio s column order).transactions = s.transactions := rfl

@[simp] theorem sortPortfolio_snapshots (s : PState) (column order : String) :
    (sortPortfolio s column order).portfolioSnapshots = s.portfolioSnapshots := rfl

@[simp] theorem sortPortfolio_cryptoData (s : PState) (column order : String) :
    (sortPortfolio s column order).cryptoData = s.cryptoData := rfl

theorem stableInsert_perm {α : Type} (le : α → α → Bool) (x : α) (l : List α) :
    List.Perm (stableInsert le x l) (x :: l) := by
  induction l with
  | nil => exact List.Perm.refl _
  | cons y ys ih =>
    unfold stableInsert
    by_cases h : le y x = true
    · rw [if_pos h]
      exact (ih.cons y).trans (List.Perm.swap x y ys)
    · rw [if_neg h]

theorem stableSort_foldl_perm {α : Type} (le : α → α → Bool) (l acc : List α) :
    List.Perm (l.foldl (fun a x => stableInsert le x a) acc) (acc ++ l) := by
  induction l generalizing acc with
  | nil => simp
  | cons x t ih =>
    simp only [List.foldl_cons]
    refine (ih (stableInsert le x acc)).trans ?_
    refine ((stableInsert_perm le x acc).append_right t).trans ?_
    simpa using (@List.perm_middle _ x acc t).symm

theorem stableSort_perm {α : Type} (le : α → α → Bool) (l : List α) :
    List.Perm (stableSort le l) l := by
  simpa [stableSort] using stableSort_foldl_perm le l []

theorem mem_stableSort {α : Type} (le : α → α → Bool) (l : List α) (a : α) :
    a ∈ stableSort le l ↔ a ∈ l :=
  (stableSort_perm le l).mem_iff

/-- **C3** (counterexample): the claim says `pnlPercent` returns the `'N/A'`
sentinel *iff* cost is exactly `0`; but at cost `-1` (not zero) the code's
`totalCost > 0` test fails and the sentinel is returned, so the "only if"
direction is false. -/
theorem calculatePnlPercent_na_iff_zero_cex :
    calculatePnlPercent 5 (-1) = .na ∧ (-1 : ℚ) ≠ 0 := by
  constructor
  · unfold calculatePnlPercent
    rw [if_neg (by norm_num)]
  · norm_num

/-- **C3** (amended): `pnlPercent(value, cost)` returns the `'N/A'` sentinel
iff cost is *not strictly positive* (`cost ≤ 0`); for `cost > 0` it returns
`(value - cost) / cost * 100`; and the sentinel never reaches arithmetic: the
`pnlPercent` sort key substitutes the number `0` for it (and passes a numeric
result through unchanged). -/
theorem calculatePnlPercent_spec (value cost : ℚ) :
    (calculatePnlPercent value cost = .na ↔ cost ≤ 0) ∧
    (0 < cost → calculatePnlPercent value cost = .val ((value - cost) / cost * 100)) ∧
    (∀ (s : PState) (a : Coin),
      calculatePnlPercent (a.amount * priceOr0 s.cryptoData a.symbol) a.totalCost = .na →
      sortKeyNum s "pnlPercent" a = some 0) ∧
    (∀ (s : PState) (a : Coin) (q : ℚ),
      calculatePnlPercent (a.amount * priceOr0 s.cryptoData a.symbol) a.totalCost = .val q →
      sortKeyNum s "pnlPercent" a = some q) := by
  refine ⟨?_, ?_, ?_, ?_⟩
  · unfold calculatePnlPercent
    by_cases h : 0 < cost
    · rw [if_pos h]
      simp [not_le.2 h]
    · rw [if_neg h]
      simp [not_lt.1 h]
  · intro h
    unfold calculatePnlPercent
    rw [if_pos h]
  · intro s a h
    simp [sortKeyNum, h]
  · intro s a q h
    simp [sortKeyNum, h]

/-- **C3** witness: at value 150, cost 100 the formula branch applies and
yields 50%. -/
theorem calculatePnlPercent_spec_witness :
    calculatePnlPercent 150 100 = .val 50 := by
  have h := (calculatePnlPercent_spec 150 100).2.1 (by norm_num)
  rw [h]
  norm_num

/-- **C5**: `setTotalCost` on an empty ledger, or with a negative value,
rejects the operation with an error message and leaves the entire state
unchanged — in particular no override is set and no snapshot is created. -/
theorem setTotalCost_validation (s : PState) (v : ℚ) (now : ℤ)
    (h : s.portfolio = [] ∨ v < 0) :
    (setTotalCost s v now).1 = s ∧ ((setTotalCost s v now).2).isSome = true := by
  unfold setTotalCost
  rcases h with h | h
  · rw [if_pos h]
    exact ⟨rfl, rfl⟩
  · by_cases he : s.portfolio = []
    · rw [if_pos he]
      exact ⟨rfl, rfl⟩
    · rw [if_neg he, if_pos h]
      exact ⟨rfl, rfl⟩

/-- **C5** witness: `setCostOverride(50)` on the empty initial session is
rejected and changes nothing. -/
theorem setTotalCost_validation_witness :
    (setTotalCost initialState 50 0).1 = initialState ∧
    ((setTotalCost initialState 50 0).2).isSome = true :=
  setTotalCost_validation initialState 50 0 (Or.inl rfl)

/-- **C4**: on a non-empty ledger, `setTotalCost v` (for `v ≥ 0`) followed by
`resetTotalCost` restores the aggregate cost to exactly the sum of the
individual holdings' `totalCost` — the same value as if no override had ever
been set. -/
theorem set_then_reset_restores_cost (s : PState) (v : ℚ) (now now2 : ℤ)
    (hne : s.portfolio ≠ []) (hv : 0 ≤ v) :
    calculateTotalCost (resetTotalCost (setTotalCost s v now).1 now2).1
      = sumCoinCosts s.portfolio ∧
    calculateTotalCost (resetTotalCost (setTotalCost s v now).1 now2).1
      = calculateTotalCost { s with portfolioTotalCost := none } := by
  have hset : (setTotalCost s v now).1.portfolio = s.portfolio ∧
      (setTotalCost s v now).1.portfolioTotalCost = some v := by
    unfold setTotalCost
    rw [if_neg hne, if_neg (not_lt.2 hv)]
    exact ⟨rfl, rfl⟩
  have hne' : (setTotalCost s v now).1.portfolio ≠ [] := by
    rw [hset.1]; exact hne
  have hreset : (resetTotalCost (setTotalCost s v now).1 now2).1.portfolio = s.portfolio ∧
      (resetTotalCost (setTotalCost s v now).1 now2).1.portfolioTotalCost = none := by
    unfold resetTotalCost
    rw [if_neg hne']
    exact ⟨by simpa using hset.1, rfl⟩
  constructor
  · unfold calculateTotalCost
    rw [hreset.2, hreset.1]
  · unfold calculateTotalCost
    rw [hreset.2, hreset.1]

/-- **C4** witness: on the one-coin session, override 50 then reset gives
aggregate cost 100 = the holding's `totalCost`. -/
theorem set_then_reset_restores_cost_witness :
    calculateTotalCost (resetTotalCost (setTotalCost sampleState 50 0).1 1).1
      = sumCoinCosts sampleState.portfolio :=
  (set_then_reset_restores_cost sampleState 50 0 1 (by simp [sampleState, initialState])
    (by norm_num)).1

theorem pushHistoryCapped_length_le (h : List HistoryEntry) (e : HistoryEntry) :
    (pushHistoryCapped h e).length ≤ 100 := by
  unfold pushHistoryCapped
  by_cases hc : 100 < (h ++ [e]).length
  · rw [if_pos hc, List.length_drop]
    omega
  · rw [if_neg hc]
    omega

theorem pushHistoryCapped_eq_of_full (h : List HistoryEntry) (e : HistoryEntry)
    (h100 : h.length = 100) : pushHistoryCapped h e = h.tail ++ [e] := by
  unfold pushHistoryCapped
  rw [if_pos (by simp [h100])]
  have hlen : (h ++ [e]).length - 100 = 1 := by simp [h100]
  rw [hlen, List.drop_append_of_le_length (by omega), List.drop_one]

/-- **C8**: the session history never exceeds 100 entries, and appending to a
history of exactly 100 evicts only the oldest entry, keeping the remaining
100 in insertion order with the new entry last. -/
theorem savePortfolioHistory_cap :
    (∀ (s : PState) (now : ℤ) (v c p : ℚ) (pp : PnlPercent),
      (savePortfolioHistory s now v c p pp).portfolioHistory.length ≤ 100) ∧
    (∀ (s : PState) (now : ℤ) (v c p : ℚ) (pp : PnlPercent),
      s.portfolioHistory.length = 100 →
      (savePortfolioHistory s now v c p pp).portfolioHistory
        = s.portfolioHistory.tail ++
          [{ timestamp := now, totalValue := v, totalCost := c, totalPnl := p,
             totalPnlPercent := pp, portfolio := s.portfolio }]) := by
  constructor
  · intro s now v c p pp
    exact pushHistoryCapped_length_le s.portfolioHistory _
  · intro s now v c p pp h100
    exact pushHistoryCapped_eq_of_full s.portfolioHistory _ h100

/-- **C8** witness: appending to a 100-entry history keeps 100 entries,
dropping exactly the head. -/
theorem savePortfolioHistory_cap_witness :
    (savePortfolioHistory cap100State 0 0 0 0 .na).portfolioHistory
      = cap100State.portfolioHistory.tail ++
        [{ timestamp := 0, totalValue := 0, totalCost := 0, totalPnl := 0,
           totalPnlPercent := .na, portfolio := cap100State.portfolio }] :=
  savePortfolioHistory_cap.2 cap100State 0 0 0 0 .na (by simp [cap100State, initialState])

theorem pushSnapshotCapped_head (snaps : List Snapshot) (snap : Snapshot) :
    (pushSnapshotCapped snaps snap).head? = some snap := by
  unfold pushSnapshotCapped
  by_cases h : 50 < (snap :: snaps).length
  · rw [if_pos h]
    rfl
  · rw [if_neg h]
    rfl

/-- **C10**: the `totalPnlPercent` a created snapshot stores is computed by
`calculateTotalPnlPercent`, which returns the *number* `0` (never the
`'N/A'` sentinel) when the aggregate cost is not strictly positive — unlike
the display metric `calculatePnlPercent`, which yields the sentinel there.
So every stored snapshot's `totalPnlPercent` is numeric. -/
theorem createSnapshot_totalPnlPercent_numeric (s : PState) (description : String)
    (now : ℤ) (hne : s.portfolio ≠ []) :
    ((createSnapshot s description now).1.portfolioSnapshots.head?.map Snapshot.totalPnlPercent)
      = some (.val (calculateTotalPnlPercent s)) ∧
    (calculateTotalCost s ≤ 0 → calculateTotalPnlPercent s = 0) ∧
    (calculateTotalCost s ≤ 0 →
      calculatePnlPercent (calculateTotalValue s) (calculateTotalCost s) = .na) := by
  refine ⟨?_, ?_, ?_⟩
  · unfold createSnapshot
    rw [if_neg hne]
    rw [pushSnapshotCapped_head]
    rfl
  · intro hle
    unfold calculateTotalPnlPercent
    rw [if_neg (not_lt.2 hle)]
  · intro hle
    unfold calculatePnlPercent
    rw [if_neg (not_lt.2 hle)]

/-- **C10** witness: on the one-coin session (cost 100, no live prices) the
created snapshot stores the numeric value `calculateTotalPnlPercent`. -/
theorem createSnapshot_totalPnlPercent_numeric_witness :
    ((createSnapshot sampleState "Manual Snapshot" 0).1.portfolioSnapshots.head?.map
        Snapshot.totalPnlPercent)
      = some (.val (calculateTotalPnlPercent sampleState)) :=
  (createSnapshot_totalPnlPercent_numeric sampleState "Manual Snapshot" 0
    (by simp [sampleState, initialState])).1

theorem latestSnapshot_cons (h a : Snapshot) (t : List Snapshot) :
    latestSnapshot h (a :: t)
      = latestSnapshot (if h.timestamp < a.timestamp then a else h) t := rfl

theorem latestSnapshot_spec (h : Snapshot) (rest : List Snapshot) :
    (latestSnapshot h rest = h ∨ latestSnapshot h rest ∈ rest) ∧
    h.timestamp ≤ (latestSnapshot h rest).timestamp ∧
    ∀ sn ∈ rest, sn.timestamp ≤ (latestSnapshot h rest).timestamp := by
  induction rest generalizing h with
  | nil => simp [latestSnapshot]
  | cons a t ih =>
    rw [latestSnapshot_cons]
    by_cases hc : h.timestamp < a.timestamp
    · rw [if_pos hc]
      obtain ⟨hmem, hle, hall⟩ := ih a
      refine ⟨?_, le_of_lt hc |>.trans hle, ?_⟩
      · rcases hmem with h1 | h1
        · exact Or.inr (by rw [h1]; exact List.mem_cons_self a t)
        · exact Or.inr (List.mem_cons_of_mem a h1)
      · intro sn hsn
        rcases List.mem_cons.1 hsn with rfl | h2
        · exact hle
        · exact hall sn h2
    · rw [if_neg hc]
      obtain ⟨hmem, hle, hall⟩ := ih h
      refine ⟨?_, hle, ?_⟩
      · rcases hmem with h1 | h1
        · exact Or.inl h1
        · exact Or.inr (List.mem_cons_of_mem a h1)
      · intro sn hsn
        rcases List.mem_cons.1 hsn with rfl | h2
        · exact le_trans (not_lt.1 hc) hle
        · exact hall sn h2

/-- **C7**: when every stored snapshot's timestamp lies in the past, the
automatic page-load snapshot is suppressed (`shouldCreateAutoSnapshot` is
`false`) iff the most recent snapshot's stored timestamp is within one hour
of now; with no snapshots it always proceeds. -/
theorem shouldCreateAutoSnapshot_spec (snaps : List Snapshot) (now : ℤ)
    (hpast : ∀ sn ∈ snaps, sn.timestamp ≤ now) :
    (snaps = [] → shouldCreateAutoSnapshot snaps now = true) ∧
    (shouldCreateAutoSnapshot snaps now = false ↔
      ∃ sn ∈ snaps, (∀ sn2 ∈ snaps, sn2.timestamp ≤ sn.timestamp) ∧
        |now - sn.timestamp| ≤ oneHourMs) := by
  match snaps with
  | [] =>
    refine ⟨fun _ => rfl, ?_⟩
    simp [shouldCreateAutoSnapshot]
  | s0 :: rest =>
    obtain ⟨hmem, hle0, hall⟩ := latestSnapshot_spec s0 rest
    have hLmem : latestSnapshot s0 rest ∈ s0 :: rest := by
      rcases hmem with h1 | h1
      · rw [h1]; exact List.mem_cons_self s0 rest
      · exact List.mem_cons_of_mem s0 h1
    have hLmax : ∀ sn2 ∈ s0 :: rest, sn2.timestamp ≤ (latestSnapshot s0 rest).timestamp := by
      intro sn2 h2
      rcases List.mem_cons.1 h2 with rfl | h2
      · exact hle0
      · exact hall sn2 h2
    have hLpast : (latestSnapshot s0 rest).timestamp ≤ now := hpast _ hLmem
    refine ⟨(fun h => nomatch h), ?_⟩
    show (decide (oneHourMs < now - (latestSnapshot s0 rest).timestamp) = false) ↔ _
    rw [decide_eq_false_iff_not, not_lt]
    constructor
    · intro hfalse
      exact ⟨latestSnapshot s0 rest, hLmem, hLmax, by rw [abs_of_nonneg (by omega)]; omega⟩
    · rintro ⟨sn, hsnmem, hsnmax, habs⟩
      have h1 : sn.timestamp ≤ (latestSnapshot s0 rest).timestamp := hLmax sn hsnmem
      have h2 : (latestSnapshot s0 rest).timestamp ≤ sn.timestamp := hsnmax _ hLmem
      have hts : (latestSnapshot s0 rest).timestamp = sn.timestamp := le_antisymm h2 h1
      rw [abs_of_nonneg (by have := hpast sn hsnmem; omega)] at habs
      omega

/-- **C7** witness: one snapshot taken 30 minutes ago suppresses the
automatic snapshot. -/
theorem shouldCreateAutoSnapshot_spec_witness :
    shouldCreateAutoSnapshot [valueSnapshot 0 100] 1800000 = false :=
  (shouldCreateAutoSnapshot_spec [valueSnapshot 0 100] 1800000
      (by intro sn hsn; simp at hsn; rw [hsn]; decide)).2.mpr
    ⟨valueSnapshot 0 100, by simp, by intro sn2 h2; simp at h2; rw [h2], by decide⟩

theorem addCoinPortfolio_CoinOk (symbol : String) (amount purchasePrice : ℚ)
    (note : String) (l : List Coin) (ha : 0 < amount)
    (hl : ∀ c ∈ l, CoinOk c) :
    ∀ c ∈ addCoinPortfolio symbol amount purchasePrice note l, CoinOk c := by
  induction l with
  | nil =>
    intro c hc
    simp only [addCoinPortfolio, List.mem_singleton] at hc
    subst hc
    exact ⟨ha, rfl⟩
  | cons d ds ih =>
    intro c hc
    unfold addCoinPortfolio at hc
    by_cases hm : d.symbol = symbol ∧ d.note = note
    · rw [if_pos hm] at hc
      rcases List.mem_cons.1 hc with rfl | h2
      · have hd := hl d (List.mem_cons_self d ds)
        have hpos : 0 < d.amount + amount := by linarith [hd.1]
        refine ⟨hpos, ?_⟩
        show d.totalCost + amount * purchasePrice
          = (d.amount + amount) * ((d.totalCost + amount * purchasePrice) / (d.amount + amount))
        rw [← mul_div_assoc, mul_div_cancel_left₀ _ (ne_of_gt hpos)]
      · exact hl c (List.mem_cons_of_mem d h2)
    · rw [if_neg hm] at hc
      rcases List.mem_cons.1 hc with rfl | h2
      · exact hl c (List.mem_cons_self c ds)
      · exact ih (fun e he => hl e (List.mem_cons_of_mem d he)) c h2

theorem addCoin_CoinOk (s : PState) (symbol : String) (amount purchasePrice : ℚ)
    (note : String) (now : ℤ) (hs : ∀ c ∈ s.portfolio, CoinOk c) :
    ∀ c ∈ (addCoin s symbol amount purchasePrice note now).1.portfolio, CoinOk c := by
  intro c hc
  by_cases h1 : symbol = "" ∨ amount = 0
  · simp only [addCoin, if_pos h1] at hc
    exact hs c hc
  · by_cases h2 : amount ≤ 0 ∨ purchasePrice < 0
    · simp only [addCoin, if_neg h1, if_pos h2] at hc
      exact hs c hc
    · have ha : 0 < amount := not_le.1 (fun hle => h2 (Or.inl hle))
      simp only [addCoin, if_neg h1, if_neg h2, updateTotalValue_portfolio,
        sortPortfolio_portfolio] at hc
      rw [mem_stableSort] at hc
      exact addCoinPortfolio_CoinOk symbol amount purchasePrice note s.portfolio ha hs c
        (by simpa using hc)

theorem applyAdds_CoinOk (ops : List AddArgs) :
    ∀ (s : PState), (∀ c ∈ s.portfolio, CoinOk c) →
    ∀ c ∈ (applyAdds s ops).portfolio, CoinOk c := by
  induction ops with
  | nil =>
    intro s hs
    simpa [applyAdds] using hs
  | cons a t ih =>
    intro s hs
    exact ih _ (addCoin_CoinOk s a.symbol a.amount a.purchasePrice a.note a.now hs)

/-- **C1**: `addCoin` preserves the invariant `totalCost = amount *
averagePrice` (together with positivity of `amount`) for every holding, in
both the append and the merge branch — so after each addition of any
validated sequence, every holding (in particular the affected one) satisfies
it exactly, and over `ℚ` the spec's 1e-9 tolerance is met with equality. -/
theorem addOrMerge_cost_invariant :
    (∀ (s : PState), (∀ c ∈ s.portfolio, CoinOk c) →
      ∀ (symbol : String) (amount purchasePrice : ℚ) (note : String) (now : ℤ),
      ∀ c ∈ (addCoin s symbol amount purchasePrice note now).1.portfolio,
        c.totalCost = c.amount * c.averagePrice) ∧
    (∀ ops : List AddArgs,
      ∀ c ∈ (applyAdds initialState ops).portfolio,
        c.totalCost = c.amount * c.averagePrice) := by
  constructor
  · intro s hs symbol amount purchasePrice note now c hc
    exact (addCoin_CoinOk s symbol amount purchasePrice note now hs c hc).2
  · intro ops c hc
    exact (applyAdds_CoinOk ops initialState (by simp [initialState]) c hc).2

/-- **C1** witness: the spec's merge scenario (one BTC at 100 already held,
then `addCoin BTC 1 @ 300`) produces the holding with amount 2, `totalCost`
400 and `averagePrice` 200, which satisfies
`totalCost = amount * averagePrice`. -/
theorem addOrMerge_cost_invariant_witness :
    mergedCoin.totalCost = mergedCoin.amount * mergedCoin.averagePrice := by
  have hport : (addCoin sampleState "BTC" 1 300 "" 0).1.portfolio = [mergedCoin] := by
    simp only [addCoin]
    rw [if_neg (by simp : ¬("BTC" = "" ∨ (1 : ℚ) = 0)),
      if_neg (by norm_num : ¬((1 : ℚ) ≤ 0 ∨ (300 : ℚ) < 0))]
    norm_num [addCoinPortfolio, sampleState, sampleCoin, initialState, mergedCoin,
      stableSort, stableInsert]
  exact addOrMerge_cost_invariant.1 sampleState
    (by intro c hc
        simp only [sampleState, initialState, List.mem_singleton] at hc
        subst hc
        exact ⟨by norm_num [sampleCoin], by norm_num [sampleCoin]⟩)
    "BTC" 1 300 "" 0 mergedCoin (by rw [hport]; exact List.mem_singleton.2 rfl)

theorem uniqueLedger_perm {l1 l2 : List Coin} (h : List.Perm l1 l2) :
    UniqueLedger l1 ↔ UniqueLedger l2 :=
  List.Perm.pairwise_iff (fun hxy he => hxy ⟨he.1.symm, he.2.symm⟩) h

theorem addCoinPortfolio_keys (symbol : String) (amount purchasePrice : ℚ)
    (note : String) (l : List Coin) :
    ∀ c ∈ addCoinPortfolio symbol amount purchasePrice note l,
      (∃ d ∈ l, c.symbol = d.symbol ∧ c.note = d.note) ∨
      (c.symbol = symbol ∧ c.note = note) := by
  induction l with
  | nil =>
    intro c hc
    simp only [addCoinPortfolio, List.mem_singleton] at hc
    subst hc
    exact Or.inr ⟨rfl, rfl⟩
  | cons d ds ih =>
    intro c hc
    unfold addCoinPortfolio at hc
    by_cases hm : d.symbol = symbol ∧ d.note = note
    · rw [if_pos hm] at hc
      rcases List.mem_cons.1 hc with rfl | h2
      · exact Or.inl ⟨d, List.mem_cons_self d ds, rfl, rfl⟩
      · exact Or.inl ⟨c, List.mem_cons_of_mem d h2, rfl, rfl⟩
    · rw [if_neg hm] at hc
      rcases List.mem_cons.1 hc with rfl | h2
      · exact Or.inl ⟨c, List.mem_cons_self c ds, rfl, rfl⟩
      · rcases ih c h2 with ⟨d', hd', hkey⟩ | hkey
        · exact Or.inl ⟨d', List.mem_cons_of_mem d hd', hkey⟩
        · exact Or.inr hkey

theorem addCoinPortfolio_unique (symbol : String) (amount purchasePrice : ℚ)
    (note : String) (l : List Coin) (h : UniqueLedger l) :
    UniqueLedger (addCoinPortfolio symbol amount purchasePrice note l) := by
  induction l with
  | nil =>
    simp [addCoinPortfolio, UniqueLedger]
  | cons d ds ih =>
    rw [UniqueLedger, List.pairwise_cons] at h
    unfold addCoinPortfolio
    by_cases hm : d.symbol = symbol ∧ d.note = note
    · rw [if_pos hm]
      rw [UniqueLedger, List.pairwise_cons]
      exact ⟨fun b hb => h.1 b hb, h.2⟩
    · rw [if_neg hm]
      rw [UniqueLedger, List.pairwise_cons]
      refine ⟨?_, ih h.2⟩
      intro b hb
      rcases addCoinPortfolio_keys symbol amount purchasePrice note ds b hb with
        ⟨d', hd', hkey⟩ | hkey
      · intro he
        exact h.1 d' hd' ⟨he.1.trans hkey.1, he.2.trans hkey.2⟩
      · intro he
        exact hm ⟨he.1.trans hkey.1, he.2.trans hkey.2⟩

theorem applyOp_unique (s : PState) (op : LedgerOp) (h : UniqueLedger s.portfolio) :
    UniqueLedger (applyOp s op).portfolio := by
  cases op with
  | add symbol amount purchasePrice note now =>
    show UniqueLedger (addCoin s symbol amount purchasePrice note now).1.portfolio
    by_cases h1 : symbol = "" ∨ amount = 0
    · simp only [addCoin, if_pos h1]
      exact h
    · by_cases h2 : amount ≤ 0 ∨ purchasePrice < 0
      · simp only [addCoin, if_neg h1, if_pos h2]
        exact h
      · simp only [addCoin, if_neg h1, if_neg h2, updateTotalValue_portfolio,
          sortPortfolio_portfolio]
        refine (uniqueLedger_perm (stableSort_perm _ _)).2 ?_
        exact addCoinPortfolio_unique symbol amount purchasePrice note s.portfolio h
  | remove symbol note now =>
    show UniqueLedger (removeCoin s symbol note now).portfolio
    unfold removeCoin
    cases hf : s.portfolio.find? (fun c => decide (c.symbol = symbol ∧ c.note = note)) with
    | some coin =>
      simp only [updateTotalValue_portfolio, sortPortfolio_portfolio]
      refine (uniqueLedger_perm (stableSort_perm _ _)).2 ?_
      exact List.Pairwise.sublist (List.filter_sublist _) h
    | none =>
      simp only [updateTotalValue_portfolio, sortPortfolio_portfolio]
      refine (uniqueLedger_perm (stableSort_perm _ _)).2 ?_
      exact List.Pairwise.sublist (List.filter_sublist _) h
  | clear now =>
    show UniqueLedger (clearPortfolio s now).portfolio
    unfold clearPortfolio
    simp only [updateTotalValue_portfolio, sortPortfolio_portfolio]
    refine (uniqueLedger_perm (stableSort_perm _ _)).2 ?_
    exact List.Pairwise.nil

theorem applyOps_unique (ops : List LedgerOp) :
    ∀ (s : PState), UniqueLedger s.portfolio → UniqueLedger (applyOps s ops).portfolio := by
  induction ops with
  | nil => intro s hs; simpa [applyOps] using hs
  | cons op t ih => intro s hs; exact ih _ (applyOp_unique s op hs)

/-- **C9** (implicit invariant): every ledger operation — add (which merges
instead of duplicating), remove (which deletes every match), clear — preserves
"at most one holding per `(symbol, note)` pair", so the uniqueness predicate
holds in every state reachable from the fresh empty session. -/
theorem ledger_unique_invariant :
    (∀ (s : PState) (op : LedgerOp),
      UniqueLedger s.portfolio → UniqueLedger (applyOp s op).portfolio) ∧
    (∀ ops : List LedgerOp, UniqueLedger (applyOps initialState ops).portfolio) := by
  refine ⟨applyOp_unique, ?_⟩
  intro ops
  exact applyOps_unique ops initialState (by simp [initialState, UniqueLedger])

/-- **C9** witness: removing from the one-coin session keeps the ledger
duplicate-free. -/
theorem ledger_unique_invariant_witness :
    UniqueLedger (applyOp sampleState (.remove "BTC" "" 0)).portfolio :=
  ledger_unique_invariant.1 sampleState (.remove "BTC" "" 0)
    (by simp [sampleState, initialState, UniqueLedger])

/-- **C6** (counterexample): the claim prices the sell transaction at the
live price "when one is known". In `zeroPriceState` a live BTC price *is*
known — it is `0` — yet `cryptoData[symbol]?.price || averagePrice` treats
the falsy `0` like an absent price, so the emitted transaction is priced at
the holding's `averagePrice` 100, not at the known live price 0. -/
theorem removeCoin_live_price_cex :
    alookup zeroPriceState.cryptoData "BTC" = some { price := 0, change24h := 0 } ∧
    (removeCoin zeroPriceState "BTC" "" 0).transactions.map Transaction.purchasePrice
      = [100] ∧
    (100 : ℚ) ≠ 0 := by
  refine ⟨by simp [zeroPriceState, sampleState, initialState, alookup], ?_, by norm_num⟩
  simp only [removeCoin, updateTotalValue_transactions, sortPortfolio_transactions]
  norm_num [zeroPriceState, sampleState, sampleCoin, initialState, List.find?,
    priceOrFallback, alookup]

theorem priceOrFallback_of_some_ne {m : List (String × CoinData)} {symbol : String}
    {d : CoinData} (h : alookup m symbol = some d) (hne : d.price ≠ 0) (fb : ℚ) :
    priceOrFallback m symbol fb = d.price := by
  unfold priceOrFallback
  rw [h]
  simp [hne]

theorem priceOrFallback_of_some_zero {m : List (String × CoinData)} {symbol : String}
    {d : CoinData} (h : alookup m symbol = some d) (hz : d.price = 0) (fb : ℚ) :
    priceOrFallback m symbol fb = fb := by
  unfold priceOrFallback
  rw [h]
  simp [hz]

theorem priceOrFallback_of_none {m : List (String × CoinData)} {symbol : String}
    (h : alookup m symbol = none) (fb : ℚ) :
    priceOrFallback m symbol fb = fb := by
  unfold priceOrFallback
  rw [h]

/-- **C6** (amended): `removeCoin(symbol, note)` removes exactly the matching
entries (up to the re-sort, a permutation) and is a no-op — not an error —
when no match exists; a sell transaction is appended iff a match was found,
priced at the live price when a *nonzero* live price is known for `symbol`,
and at the removed holding's `averagePrice` when no live price is known or
the known price is `0`. -/
theorem removeCoin_spec (s : PState) (symbol note : String) (now : ℤ) :
    List.Perm (removeCoin s symbol note now).portfolio
      (s.portfolio.filter (fun c => decide (¬(c.symbol = symbol ∧ c.note = note)))) ∧
    (s.portfolio.find? (fun c => decide (c.symbol = symbol ∧ c.note = note)) = none →
      (removeCoin s symbol note now).transactions = s.transactions) ∧
    (∀ coin,
      s.portfolio.find? (fun c => decide (c.symbol = symbol ∧ c.note = note)) = some coin →
      (∀ d, alookup s.cryptoData symbol = some d → d.price ≠ 0 →
        (removeCoin s symbol note now).transactions
          = s.transactions ++ [sellTx symbol note now coin d.price]) ∧
      ((alookup s.cryptoData symbol = none ∨
          (∃ d, alookup s.cryptoData symbol = some d ∧ d.price = 0)) →
        (removeCoin s symbol note now).transactions
          = s.transactions ++ [sellTx symbol note now coin coin.averagePrice])) := by
  refine ⟨?_, ?_, ?_⟩
  · unfold removeCoin
    cases hf : s.portfolio.find? (fun c => decide (c.symbol = symbol ∧ c.note = note)) with
    | some coin =>
      simp only [updateTotalValue_portfolio, sortPortfolio_portfolio]
      exact stableSort_perm _ _
    | none =>
      simp only [updateTotalValue_portfolio, sortPortfolio_portfolio]
      exact stableSort_perm _ _
  · intro hf
    unfold removeCoin
    rw [hf]
    rfl
  · intro coin hf
    constructor
    · intro d hd hdne
      unfold removeCoin
      rw [hf]
      simp only [updateTotalValue_transactions, sortPortfolio_transactions]
      rw [priceOrFallback_of_some_ne hd hdne]
      rfl
    · intro hcase
      unfold removeCoin
      rw [hf]
      simp only [updateTotalValue_transactions, sortPortfolio_transactions]
      rcases hcase with hnone | ⟨d, hd, hdz⟩
      · rw [priceOrFallback_of_none hnone]
        rfl
      · rw [priceOrFallback_of_some_zero hd hdz]
        rfl

/-- **C6** witness: with a known live price 50 for BTC, removing the BTC
holding appends a sell transaction priced at 50. -/
theorem removeCoin_spec_witness :
    (removeCoin livePriceState "BTC" "" 0).transactions
      = livePriceState.transactions ++ [sellTx "BTC" "" 0 sampleCoin 50] :=
  ((removeCoin_spec livePriceState "BTC" "" 0).2.2 sampleCoin rfl).1
    { price := 50, change24h := 0 } rfl (by norm_num)

theorem char_toNat_inj {a b : Char} (h : a.toNat = b.toNat) : a = b :=
  Char.ext (UInt32.ext h)

theorem charListLe_total (a : List Char) : ∀ b : List Char,
    charListLe a b = true ∨ charListLe b a = true := by
  induction a with
  | nil => intro b; left; rfl
  | cons x xs ih =>
    intro b
    cases b with
    | nil => right; rfl
    | cons y ys =>
      unfold charListLe
      by_cases hxy : x = y
      · subst hxy
        rw [if_pos rfl, if_pos rfl]
        exact ih ys
      · rw [if_neg hxy, if_neg (fun h => hxy h.symm)]
        rcases Nat.lt_or_ge x.toNat y.toNat with h | h
        · exact Or.inl (decide_eq_true h)
        · refine Or.inr (decide_eq_true ?_)
          exact lt_of_le_of_ne h (fun e => hxy (char_toNat_inj e.symm))

theorem charListLe_trans (a : List Char) : ∀ b c : List Char,
    charListLe a b = true → charListLe b c = true → charListLe a c = true := by
  induction a with
  | nil => intro b c _ _; rfl
  | cons x xs ih =>
    intro b c hab hbc
    cases b with
    | nil => simp [charListLe] at hab
    | cons y ys =>
      cases c with
      | nil => simp [charListLe] at hbc
      | cons z zs =>
        unfold charListLe at hab hbc ⊢
        by_cases hxy : x = y
        · subst hxy
          rw [if_pos rfl] at hab
          by_cases hyz : x = z
          · subst hyz
            rw [if_pos rfl] at hbc
            rw [if_pos rfl]
            exact ih ys zs hab hbc
          · rw [if_neg hyz] at hbc
            rw [if_neg hyz]
            exact hbc
        · rw [if_neg hxy] at hab
          by_cases hyz : y = z
          · subst hyz
            rw [if_neg hxy]
            exact hab
          · rw [if_neg hyz] at hbc
            have h1 := of_decide_eq_true hab
            have h2 := of_decide_eq_true hbc
            by_cases hxz : x = z
            · subst hxz
              omega
            · rw [if_neg hxz]
              exact decide_eq_true (h1.trans h2)

theorem stableInsert_pairwise {α : Type} (le : α → α → Bool)
    (htot : ∀ a b, le a b = true ∨ le b a = true)
    (htrans : ∀ a b c, le a b = true → le b c = true → le a c = true)
    (x : α) (l : List α) (h : l.Pairwise (fun a b => le a b = true)) :
    (stableInsert le x l).Pairwise (fun a b => le a b = true) := by
  induction l with
  | nil => exact List.pairwise_singleton _ _
  | cons y ys ih =>
    rw [List.pairwise_cons] at h
    unfold stableInsert
    by_cases hyx : le y x = true
    · rw [if_pos hyx, List.pairwise_cons]
      refine ⟨?_, ih h.2⟩
      intro z hz
      rw [(stableInsert_perm le x ys).mem_iff] at hz
      rcases List.mem_cons.1 hz with rfl | hz2
      · exact hyx
      · exact h.1 z hz2
    · rw [if_neg hyx, List.pairwise_cons]
      have hxy : le x y = true := (htot x y).resolve_right (fun hh => hyx hh)
      refine ⟨?_, List.pairwise_cons.2 h⟩
      intro z hz
      rcases List.mem_cons.1 hz with rfl | hz2
      · exact hxy
      · exact htrans x y z hxy (h.1 z hz2)

theorem stableSort_pairwise {α : Type} (le : α → α → Bool)
    (htot : ∀ a b, le a b = true ∨ le b a = true)
    (htrans : ∀ a b c, le a b = true → le b c = true → le a c = true)
    (l : List α) :
    (stableSort le l).Pairwise (fun a b => le a b = true) := by
  suffices h : ∀ (t acc : List α), acc.Pairwise (fun a b => le a b = true) →
      (t.foldl (fun a x => stableInsert le x a) acc).Pairwise (fun a b => le a b = true) by
    exact h l [] List.Pairwise.nil
  intro t
  induction t with
  | nil => intro acc h; simpa using h
  | cons x t2 ih =>
    intro acc h
    exact ih _ (stableInsert_pairwise le htot htrans x acc h)

theorem upsertDaily_mem (m : List (String × Snapshot)) (k : String) (snap : Snapshot)
    (hpw : m.Pairwise (fun p q => p.1 ≠ q.1)) :
    ∀ p ∈ upsertDaily m k snap,
      (p ∈ m ∧ (p.1 = k → ¬(p.2.timestamp < snap.timestamp))) ∨
      (p = (k, snap) ∧ ∀ q ∈ m, q.1 = k → q.2.timestamp < snap.timestamp) := by
  induction m with
  | nil =>
    intro p hp
    simp only [upsertDaily, List.mem_singleton] at hp
    subst hp
    exact Or.inr ⟨rfl, fun q hq => absurd hq (List.not_mem_nil q)⟩
  | cons e rest ih =>
    obtain ⟨ek, es⟩ := e
    rw [List.pairwise_cons] at hpw
    intro p hp
    unfold upsertDaily at hp
    by_cases hk : ek = k
    · rw [if_pos hk] at hp
      by_cases ht : es.timestamp < snap.timestamp
      · rw [if_pos ht] at hp
        rcases List.mem_cons.1 hp with rfl | hp2
        · refine Or.inr ⟨by rw [hk], ?_⟩
          intro q hq hqk
          rcases List.mem_cons.1 hq with rfl | hq2
          · exact ht
          · exact absurd (hk.trans hqk.symm) (hpw.1 q hq2)
        · refine Or.inl ⟨List.mem_cons_of_mem _ hp2, ?_⟩
          intro hpk
          exact absurd (hk.trans hpk.symm) (hpw.1 p hp2)
      · rw [if_neg ht] at hp
        rcases List.mem_cons.1 hp with rfl | hp2
        · exact Or.inl ⟨List.mem_cons_self _ _, fun _ => ht⟩
        · refine Or.inl ⟨List.mem_cons_of_mem _ hp2, ?_⟩
          intro hpk
          exact absurd (hk.trans hpk.symm) (hpw.1 p hp2)
    · rw [if_neg hk] at hp
      rcases List.mem_cons.1 hp with rfl | hp2
      · exact Or.inl ⟨List.mem_cons_self _ _, fun hpk => absurd hpk hk⟩
      · rcases ih hpw.2 p hp2 with ⟨hmem, hcond⟩ | ⟨heq, hall⟩
        · exact Or.inl ⟨List.mem_cons_of_mem _ hmem, hcond⟩
        · refine Or.inr ⟨heq, ?_⟩
          intro q hq hqk
          rcases List.mem_cons.1 hq with rfl | hq2
          · exact absurd hqk hk
          · exact hall q hq2 hqk

theorem upsertDaily_key_exists (m : List (String × Snapshot)) (k : String)
    (snap : Snapshot) : ∃ p ∈ upsertDaily m k snap, p.1 = k := by
  induction m with
  | nil => exact ⟨(k, snap), List.mem_singleton.2 rfl, rfl⟩
  | cons e rest ih =>
    obtain ⟨ek, es⟩ := e
    unfold upsertDaily
    by_cases hk : ek = k
    · rw [if_pos hk]
      by_cases ht : es.timestamp < snap.timestamp
      · rw [if_pos ht]
        exact ⟨(ek, snap), List.mem_cons_self _ _, hk⟩
      · rw [if_neg ht]
        exact ⟨(ek, es), List.mem_cons_self _ _, hk⟩
    · rw [if_neg hk]
      obtain ⟨p, hp, hpk⟩ := ih
      exact ⟨p, List.mem_cons_of_mem _ hp, hpk⟩

theorem upsertDaily_keys_preserved (m : List (String × Snapshot)) (k : String)
    (snap : Snapshot) :
    ∀ q ∈ m, ∃ p ∈ upsertDaily m k snap, p.1 = q.1 := by
  induction m with
  | nil => intro q hq; exact absurd hq (List.not_mem_nil q)
  | cons e rest ih =>
    obtain ⟨ek, es⟩ := e
    intro q hq
    unfold upsertDaily
    by_cases hk : ek = k
    · rw [if_pos hk]
      by_cases ht : es.timestamp < snap.timestamp
      · rw [if_pos ht]
        rcases List.mem_cons.1 hq with rfl | hq2
        · exact ⟨(ek, snap), List.mem_cons_self _ _, rfl⟩
        · exact ⟨q, List.mem_cons_of_mem _ hq2, rfl⟩
      · rw [if_neg ht]
        exact ⟨q, hq, rfl⟩
    · rw [if_neg hk]
      rcases List.mem_cons.1 hq with rfl | hq2
      · exact ⟨(ek, es), List.mem_cons_self _ _, rfl⟩
      · obtain ⟨p, hp, hpk⟩ := ih q hq2
        exact ⟨p, List.mem_cons_of_mem _ hp, hpk⟩

theorem upsertDaily_pairwise (m : List (String × Snapshot)) (k : String)
    (snap : Snapshot) (h : m.Pairwise (fun p q => p.1 ≠ q.1)) :
    (upsertDaily m k snap).Pairwise (fun p q => p.1 ≠ q.1) := by
  induction m with
  | nil => exact List.pairwise_singleton _ _
  | cons e rest ih =>
    obtain ⟨ek, es⟩ := e
    rw [List.pairwise_cons] at h
    unfold upsertDaily
    by_cases hk : ek = k
    · rw [if_pos hk]
      by_cases ht : es.timestamp < snap.timestamp
      · rw [if_pos ht, List.pairwise_cons]
        exact ⟨fun q hq => h.1 q hq, h.2⟩
      · rw [if_neg ht, List.pairwise_cons]
        exact ⟨fun q hq => h.1 q hq, h.2⟩
    · rw [if_neg hk, List.pairwise_cons]
      refine ⟨?_, ih h.2⟩
      intro q hq
      rcases upsertDaily_mem rest k snap h.2 q hq with ⟨hmem, _⟩ | ⟨heq, _⟩
      · exact h.1 q hmem
      · rw [heq]
        exact hk

theorem upsertDaily_DailyInv (done : List Snapshot) (m : List (String × Snapshot))
    (snap : Snapshot) (h : DailyInv done m) :
    DailyInv (done ++ [snap]) (upsertDaily m (dateKey snap.timestamp) snap) := by
  obtain ⟨h1, h2, h3⟩ := h
  refine ⟨?_, ?_, upsertDaily_pairwise _ _ _ h3⟩
  · intro p hp
    rcases upsertDaily_mem m (dateKey snap.timestamp) snap h3 p hp with
      ⟨hmem, hdom⟩ | ⟨heq, hall⟩
    · obtain ⟨hkey, hpm, hmax⟩ := h1 p hmem
      refine ⟨hkey, List.mem_append_left _ hpm, ?_⟩
      intro sn hsn hsnk
      rcases List.mem_append.1 hsn with hsn2 | hsn2
      · exact hmax sn hsn2 hsnk
      · rw [List.mem_singleton] at hsn2
        subst hsn2
        exact not_lt.1 (hdom hsnk.symm)
    · subst heq
      refine ⟨rfl, List.mem_append_right _ (List.mem_singleton.2 rfl), ?_⟩
      intro sn hsn hsnk
      rcases List.mem_append.1 hsn with hsn2 | hsn2
      · obtain ⟨q, hq, hqk⟩ := h2 sn hsn2
        have hq2 := hall q hq (hqk.trans hsnk)
        obtain ⟨_, _, hmax⟩ := h1 q hq
        have hle := hmax sn hsn2 hqk.symm
        exact le_of_lt (lt_of_le_of_lt hle hq2)
      · rw [List.mem_singleton] at hsn2
        subst hsn2
        exact le_refl _
  · intro sn hsn
    rcases List.mem_append.1 hsn with hsn2 | hsn2
    · obtain ⟨q, hq, hqk⟩ := h2 sn hsn2
      obtain ⟨p, hp, hpk⟩ := upsertDaily_keys_preserved m (dateKey snap.timestamp) snap q hq
      exact ⟨p, hp, hpk.trans hqk⟩
    · rw [List.mem_singleton] at hsn2
      subst hsn2
      exact upsertDaily_key_exists m (dateKey sn.timestamp) sn

theorem dailySnapshots_foldl_inv (todo : List Snapshot) :
    ∀ (done : List Snapshot) (m : List (String × Snapshot)), DailyInv done m →
    DailyInv (done ++ todo)
      (todo.foldl (fun m sn => upsertDaily m (dateKey sn.timestamp) sn) m) := by
  induction todo with
  | nil => intro done m h; simpa using h
  | cons sn t ih =>
    intro done m h
    have h2 := ih (done ++ [sn]) _ (upsertDaily_DailyInv done m sn h)
    simpa using h2

theorem dailySnapshots_DailyInv (l : List Snapshot) : DailyInv l (dailySnapshots l) := by
  have h := dailySnapshots_foldl_inv l [] []
    ⟨fun p hp => absurd hp (List.not_mem_nil p),
     fun sn hsn => absurd hsn (List.not_mem_nil sn),
     List.Pairwise.nil⟩
  simpa [dailySnapshots] using h

set_option maxRecDepth 100000 in
/-- **C2**: the export groups the in-range snapshots by UTC calendar day,
keeping per day exactly the latest-timestamped in-range snapshot, and emits
the day entries sorted by strictly ascending date key; in particular, for the
spec's three snapshots (values 100, 120, 130 at 2024-01-01T10:00Z,
2024-01-01T22:00Z, 2024-01-02T09:00Z) and range 2024-01-01..2024-01-02, the
CSV body is exactly `2024-01-01,120.00` and `2024-01-02,130.00`. -/
theorem exportHistory_daily_aggregation :
    (∀ (snaps : List Snapshot) (start end0 : Option ℤ),
      (exportDaily snaps start end0).Pairwise
        (fun p q => strLe p.1 q.1 = true ∧ p.1 ≠ q.1) ∧
      (∀ p ∈ exportDaily snaps start end0,
        dateKey p.2.timestamp = p.1 ∧ p.2 ∈ exportFiltered snaps start end0 ∧
        ∀ sn ∈ exportFiltered snaps start end0,
          dateKey sn.timestamp = p.1 → sn.timestamp ≤ p.2.timestamp) ∧
      (∀ sn ∈ exportFiltered snaps start end0,
        ∃ p ∈ exportDaily snaps start end0, p.1 = dateKey sn.timestamp)) ∧
    exportHistoryRows c2Snapshots (some 1704067200000) (some 1704153600000)
      = ["2024-01-01,120.00", "2024-01-02,130.00"] := by
  constructor
  · intro snaps start end0
    have hperm := stableSort_perm (fun a b : String × Snapshot => strLe a.1 b.1)
      (dailySnapshots (exportFiltered snaps start end0))
    have hinv := dailySnapshots_DailyInv (exportFiltered snaps start end0)
    refine ⟨?_, ?_, ?_⟩
    · have hle := stableSort_pairwise (fun a b : String × Snapshot => strLe a.1 b.1)
        (fun a b => charListLe_total a.1.data b.1.data)
        (fun a b c => charListLe_trans a.1.data b.1.data c.1.data)
        (dailySnapshots (exportFiltered snaps start end0))
      have hne : (exportDaily snaps start end0).Pairwise (fun p q => p.1 ≠ q.1) :=
        (List.Perm.pairwise_iff (fun hxy => hxy.symm) hperm).2 hinv.2.2
      exact hle.and hne
    · intro p hp
      have hp2 : p ∈ dailySnapshots (exportFiltered snaps start end0) :=
        hperm.mem_iff.1 hp
      exact hinv.1 p hp2
    · intro sn hsn
      obtain ⟨p, hp, hpk⟩ := hinv.2.1 sn hsn
      exact ⟨p, hperm.mem_iff.2 hp, hpk⟩
  · have hD : exportDaily c2Snapshots (some 1704067200000) (some 1704153600000)
        = [("2024-01-01", valueSnapshot 1704146400000 120),
           ("2024-01-02", valueSnapshot 1704186000000 130)] := by rfl
    have h120 : toFixed 2 (120 : ℚ) = "120.00" := by
      unfold toFixed
      norm_num
      rfl
    have h130 : toFixed 2 (130 : ℚ) = "130.00" := by
      unfold toFixed
      norm_num
      rfl
    rw [exportHistoryRows, hD]
    simp [valueSnapshot, h120, h130]

set_option maxRecDepth 100000 in
/-- **C2** witness: in the spec's example, the first emitted day entry indeed
carries the day key of its snapshot's timestamp. -/
theorem exportHistory_daily_aggregation_witness :
    dateKey (valueSnapshot 1704146400000 120).timestamp = "2024-01-01" :=
  ((exportHistory_daily_aggregation.1 c2Snapshots (some 1704067200000)
      (some 1704153600000)).2.1 ("2024-01-01", valueSnapshot 1704146400000 120)
    (by rw [show exportDaily c2Snapshots (some 1704067200000) (some 1704153600000)
          = [("2024-01-01", valueSnapshot 1704146400000 120),
             ("2024-01-02", valueSnapshot 1704186000000 130)] from rfl]
        exact List.mem_cons_self _ _)).1

end Profolio
